import Mathlib

/-!
Verification of the `ash` interactive shell (Rust) against its
natural-language specification.

Rust strings are modelled as `List Char` (one `Char` per byte for the
ASCII inputs exercised here; Rust byte indices coincide with list
indices on such strings).  Fallible Rust code is modelled with
`Option`/`Except`; a Rust panic is modelled as `none`.  Machine
integers (`usize`) are modelled as `Nat`, with an explicit `% 2 ^ 64`
at the single place where Rust release-mode wrapping subtraction can
occur (`args.len() - 1` in `CommandParser::parse`).

File-system and terminal effects are parameters: the directory listing
consumed by the autocomplete engine, the existence predicate consumed
by command resolution, and the success predicate of the OS `chdir`
call are passed in as explicit arguments.
-/

/-- Rust `&str` modelled as a list of characters. -/

abbrev Str := List Char

/-- Whitespace predicate standing for Rust `char::is_whitespace`
(identical on the ASCII characters exercised here). -/
def isWs (c : Char) : Bool := c.isWhitespace

/-- Rust `str::trim_start`. -/
def trim_start (s : Str) : Str := s.dropWhile isWs

/-- Rust `str::trim_end`. -/
def trim_end (s : Str) : Str := (s.reverse.dropWhile isWs).reverse

/-- Rust `str::trim`. -/
def rust_trim (s : Str) : Str := trim_start (trim_end s)

/-- Splits a string at every character satisfying `p`, keeping empty
chunks, as Rust `str::split` with a char predicate does. -/
def splitOnPred (p : Char → Bool) (s : Str) : List Str :=
  s.foldr
    (fun c acc =>
      if p c then [] :: acc
      else
        match acc with
        | [] => [[c]]
        | a :: as => (c :: a) :: as)
    [[]]

/-- Rust `str::split` on a single character (keeps empty chunks). -/
def splitOnChar (sep : Char) (s : Str) : List Str :=
  splitOnPred (fun c => c = sep) s

/-- Rust `str::split_whitespace`: split on runs of whitespace,
discarding empty chunks. -/
def split_whitespace (s : Str) : List Str :=
  (splitOnPred isWs s).filter (fun t => ¬ t.isEmpty)

/-- Helper for `splitOnStr`: structural recursion on a fuel argument,
so that the function reduces definitionally.  A fuel of `s.length`
always suffices (each step strictly shortens the string), so the
fuel-exhausted arm is unreachable from `splitOnStr`. -/
def splitOnStrF (sep : Str) : Nat → Str → List Str
  | _, [] => [[]]
  | 0, s => [s]
  | fuel + 1, c :: rest =>
    if sep ≠ [] ∧ sep.isPrefixOf (c :: rest) then
      [] :: splitOnStrF sep fuel ((c :: rest).drop sep.length)
    else
      match splitOnStrF sep fuel rest with
      | [] => [[c]]
      | a :: as => (c :: a) :: as

/-- Rust `str::split` on a non-empty string separator: splits at each
non-overlapping occurrence, scanning left to right. -/
def splitOnStr (sep : Str) (s : Str) : List Str :=
  splitOnStrF sep s.length s

/-- Rust `Vec::join` on string separators. -/
def joinWith (sep : Str) : List Str → Str
  | [] => []
  | [x] => x
  | x :: y :: t => x ++ sep ++ joinWith sep (y :: t)

/-- Helper for `str_replace`: the non-empty-pattern case of Rust
`str::replace`, replacing each non-overlapping occurrence left to
right.  Structural recursion on a fuel argument; a fuel of `s.length`
always suffices, so the fuel-exhausted arm is unreachable from
`str_replace`. -/
def str_replace_neF (pat repl : Str) : Nat → Str → Str
  | _, [] => []
  | 0, s => s
  | fuel + 1, c :: rest =>
    if pat ≠ [] ∧ pat.isPrefixOf (c :: rest) then
      repl ++ str_replace_neF pat repl fuel ((c :: rest).drop pat.length)
    else
      c :: str_replace_neF pat repl fuel rest

/-- Rust `str::replace`.  An empty pattern matches at every character
boundary, including both ends. -/
def str_replace (pat repl s : Str) : Str :=
  if pat = [] then repl ++ (s.map (fun c => c :: repl)).flatten
  else str_replace_neF pat repl s.length s

/-! ## Command parser (src/parser.rs) -/

/-- ParsedCommand from src/parser.rs. -/

structure ParsedCommand where
  command : Str
  args : List Str
  paths : List Str
deriving DecidableEq, Repr

/-- CommandParser::split_command_line: whitespace tokenizer respecting
single and double quotes; a quote character only closes a region
opened by the same character; unmatched quotes degrade to best-effort
tokenization. -/
def split_command_line (input : Str) : List Str :=
  let step := fun (st : List Str × Str × Option Char) (c : Char) =>
    let (args, current, quote_type) := st
    if c = '"' ∨ c = '\'' then
      if quote_type = some c then (args, current, none)
      else if quote_type = none then (args, current, some c)
      else (args, current ++ [c], quote_type)
    else if c = ' ' ∧ quote_type = none then
      if ¬ current.isEmpty then (args ++ [current], [], quote_type)
      else (args, current, quote_type)
    else (args, current ++ [c], quote_type)
  let fin := input.foldl step ([], [], none)
  if ¬ fin.2.1.isEmpty then fin.1 ++ [fin.2.1] else fin.1

/-- CommandParser::parse_path: expand a leading `~`/`~/` to the user's
home directory, anchor relative paths with `./`, split on `/`.  The
`user` parameter stands for the `USER` environment variable. -/
def parse_path (user : Str) (input : Str) : List Str :=
  let userpath := ("/home/".data) ++ user ++ (["/"].flatMap String.data)
  let step1 := str_replace ("~/".data) userpath input
  let step2 := str_replace ("~".data) userpath step1
  let anchored := if ("/".data).isPrefixOf step2 then step2 else ("./".data) ++ step2
  splitOnChar '/' anchored

/-- Modulus of Rust `usize` arithmetic. -/
def usizeMod : Nat := 2 ^ 64

/-- CommandParser::parse.  `metaExpects key` stands for the lookup
`metadata.get(key).and_then(|m| m.get("expects")).is_some()` against
the injected `meta.toml` table.  The expression `args.len() - 1` is
`usize` subtraction, which wraps in release builds; it is modelled
with the explicit `% 2 ^ 64`.  The `todo!()` arm hit when the last
argument cannot be taken mutably is modelled as `none` (a panic). -/
def parse (user : Str) (metaExpects : Str → Bool) (s : Str) : Option ParsedCommand :=
  let args0 := split_command_line s
  let command := (args0.head?).getD []
  let takeCount := (args0.length + (usizeMod - 1)) % usizeMod
  let args1 := (args0.tail).take takeCount
  let args2 := args1.map (fun f =>
    if ("~".data).isPrefixOf f then joinWith ("/".data) (parse_path user f) else f)
  let path := (args2.getLast?).getD []
  let paths := parse_path user path
  let key := joinWith ("_".data) (split_whitespace command)
  if ¬ path.isEmpty ∧ metaExpects key then
    match args2.getLast? with
    | none => none
    | some _ => some ⟨command, args2.dropLast ++ [joinWith ("/".data) paths], paths⟩
  else
    some ⟨command, args2, paths⟩

/-! ## Autocomplete engine (src/autocomplete.rs) -/

/-- AutoComplete::get_longest_match, inner loop.  `len` is the length
already known to be shared; each iteration grows it by one and calls
`first.split_at(len + 1)`, which panics (modelled as `none`) when
`len + 1` exceeds the length of the first match. -/

def glm_go (names : List Str) (first : Str) : Nat → Str → Nat → Option Str
  | 0, _, _ => none
  | fuel + 1, longest, len =>
    if first.length < len + 1 then none
    else
      let trying := first.take (len + 1)
      if names.all (fun e => trying.isPrefixOf e) then glm_go names first fuel trying (len + 1)
      else some longest

/-- AutoComplete::get_longest_match: grow the shared prefix one
character at a time starting from the search string.  `none` models a
panic: either `entries.first().unwrap()` on an empty list, or the
`split_at` overrun inside the loop.  Structural recursion on a fuel
argument; `first.length + 1` iterations always suffice because `len`
grows by one per step and the loop panics once `len` passes
`first.length`, so the fuel-exhausted arm is unreachable. -/
def get_longest_match (names : List Str) (search : Str) : Option Str :=
  match names with
  | [] => none
  | first :: _ => glm_go names first (first.length + 1) search search.length

/-- Column count computed by AutoComplete::autocomplete for the
multi-column candidate listing (no minimum applied). -/
def columns_of (terminal_width max_width : Nat) : Nat :=
  terminal_width / (max_width + 2)

/-- Column count computed by the older Shell::autocomplete iteration
in src/shell.rs, which clamps with `.max(1)`. -/
def shell_columns (terminal_width max_width : Nat) : Nat :=
  Nat.max (columns_of terminal_width max_width) 1

/-- AutoComplete::autocomplete (src/autocomplete.rs lines 22-94).
The `entries` parameter stands for the sorted listing
`fs::read_dir(in_path)` produces: pairs of file name and an
is-directory flag.  `terminal_width` stands for `terminal::size()`.
`none` models a panic: the `split_at` overrun inside
`get_longest_match`, or the `(i + 1) % columns` modulo-by-zero in the
listing branch (the listing loop always runs at least once because at
least two entries match). -/
def autocomplete (user : Str) (metaExpects : Str → Bool)
    (entries : List (Str × Bool)) (terminal_width : Nat) (cmd : Str) : Option Str :=
  let parsed := (parse user metaExpects cmd).getD ⟨[], [], []⟩
  let searched := (parsed.paths.getLast?).getD []
  let entries1 := if parsed.command = ("cd".data) then entries.filter (fun e => e.2) else entries
  let matching := entries1.filter (fun e => searched.isEmpty ∨ searched.isPrefixOf e.1)
  if 1 < matching.length then
    match get_longest_match (matching.map (fun e => e.1)) searched with
    | none => none
    | some lm =>
      if searched.length < lm.length then some (str_replace searched lm cmd)
      else
        let max_width := (entries1.map (fun e => e.1.length)).foldr Nat.max 0
        if columns_of terminal_width max_width = 0 then none else some cmd
  else if matching.length = 1 then
    let m := (matching.head?).getD ([], false)
    some (str_replace searched (m.1 ++ (if m.2 then ("/".data) else [])) cmd)
  else some cmd

/-! ## History store (src/history.rs) -/

/-- History from src/history.rs.  `file` is the full content of the
backing file, `pos` the `LineReader` byte position, `commands` the
in-memory window, `new_commands_count` the session-new counter. -/

structure HistorySt where
  file : Str
  pos : Nat
  commands : List Str
  new_commands_count : Nat
deriving DecidableEq, Repr

/-- BufReader::read_line on the remaining file content: the raw line
(without its terminator) and the number of bytes consumed (terminator
included when present). -/
def read_line_rem (rem : Str) : Str × Nat :=
  if (rem.takeWhile (fun c => c ≠ '\n')).length < rem.length then
    (rem.takeWhile (fun c => c ≠ '\n'), (rem.takeWhile (fun c => c ≠ '\n')).length + 1)
  else
    (rem.takeWhile (fun c => c ≠ '\n'), (rem.takeWhile (fun c => c ≠ '\n')).length)

/-- LineReader::read_lines inner loop on the remaining file content:
up to `count` lines, each `trim_end`ed as in the source, together with
the total bytes consumed; stops early at end of file (`bytes_read ==
0`). -/
def read_lines_rem : Nat → Str → List Str × Nat
  | 0, _ => ([], 0)
  | count + 1, rem =>
    if rem.isEmpty then ([], 0)
    else
      let pr := read_line_rem rem
      let rest := read_lines_rem count (rem.drop pr.2)
      (trim_end pr.1 :: rest.1, pr.2 + rest.2)

/-- LineReader::read_lines: seek to the stored position, read up to
`count` lines, and return them with the updated position. -/
def read_lines (file : Str) (pos count : Nat) : List Str × Nat :=
  let pr := read_lines_rem count (file.drop pos)
  (pr.1, pos + pr.2)

/-- History::new: open the backing file (created empty when absent —
`file` is its content) and load the first batch of 10 lines. -/
def history_new (file : Str) : HistorySt :=
  let pr := read_lines file 0 10
  ⟨file, pr.2, pr.1, 0⟩

/-- History::add_command: push at the front unless equal to the
current first entry; bump the session-new counter on a push. -/
def add_command (st : HistorySt) (c : Str) : HistorySt :=
  if ((st.commands.head?).getD []) ≠ c then
    ⟨st.file, st.pos, c :: st.commands, st.new_commands_count + 1⟩
  else st

/-- History::get_command. -/
def get_command (st : HistorySt) (i : Nat) : Option Str := st.commands[i]?

/-- History::count. -/
def hist_count (st : HistorySt) : Nat := st.commands.length

/-- History::fetch_more: read the next batch of up to 10 lines and
append it to the in-memory window when non-empty. -/
def fetch_more (st : HistorySt) : HistorySt :=
  let pr := read_lines st.file st.pos 10
  if 0 < pr.1.length then ⟨st.file, pr.2, st.commands ++ pr.1, st.new_commands_count⟩
  else ⟨st.file, pr.2, st.commands, st.new_commands_count⟩

/-- Data string built by `Drop for History`: the first
`new_commands_count` non-blank in-memory commands joined by newlines,
with one trailing newline when non-empty.  (`enumerate` runs after the
blank filter in the source, so the counter indexes the filtered
list.) -/
def drop_data (st : HistorySt) : Str :=
  let kept := (st.commands.filter (fun c => ¬ (rust_trim c).isEmpty)).take st.new_commands_count
  if kept.isEmpty then [] else joinWith ("\n".data) kept ++ ("\n".data)

/-- History::prepend_to_file: the new data followed by the previous
file content, written over the whole file. -/
def prepend_to_file (file data : Str) : Str := data ++ file

/-- Backing file content after `Drop for History` runs. -/
def drop_file (st : HistorySt) : Str := prepend_to_file st.file (drop_data st)

/-- Iterated History::fetch_more. -/
def fetch_iter : Nat → HistorySt → HistorySt
  | 0, st => st
  | n + 1, st => fetch_iter n (fetch_more st)

/-- Calls History::fetch_more until the backing file is exhausted;
`file.length` iterations always suffice because every non-final call
consumes at least one byte. -/
def fetch_all (st : HistorySt) : HistorySt := fetch_iter st.file.length st

/-- In-memory window produced by front-pushing each command of `cs`
onto `acc` unless it equals the current head (the add_command fold). -/
def dedup_from (acc : List Str) (cs : List Str) : List Str :=
  cs.foldl (fun a c => if ((a.head?).getD []) ≠ c then c :: a else a) acc

/-- In-memory window after adding `cs` to an empty store: the
commands with consecutive duplicates dropped, most recent first. -/
def dedup_stack (cs : List Str) : List Str := dedup_from [] cs

/-- Store state after a session that opens an empty history file and
adds the commands `cs` in order. -/
def session_store (cs : List Str) : HistorySt :=
  cs.foldl add_command (history_new [])

/-- Store state after the session's shutdown persist, reopening the
backing file and fetching every batch. -/
def reopened_store (cs : List Str) : HistorySt :=
  fetch_all (history_new (drop_file (session_store cs)))

/-- Every line remaining in the file from the reader's position: what
repeated fetch_more calls eventually load. -/
def read_all_rem (rem : Str) : List Str :=
  if h : rem.isEmpty then []
  else trim_end (read_line_rem rem).1 :: read_all_rem (rem.drop (read_line_rem rem).2)
termination_by rem.length
decreasing_by
  simp only [List.length_drop]
  have h2 : 1 ≤ rem.length := by
    cases hr : rem with
    | nil => rw [hr] at h; exact absurd rfl h
    | cons a t => simp
  have h1 : 1 ≤ (read_line_rem rem).2 := by
    unfold read_line_rem
    have hle := (List.takeWhile_sublist (l := rem) (fun c => c ≠ '\n')).length_le
    split
    · simp
    · rename_i hlt
      simp only [not_lt] at hlt
      simp only
      omega
  omega

/-! ## Pipeline executor (src/shell.rs) -/

/-- One spawned child process: resolved program path, arguments, and
how its standard streams were wired (`stdinPiped` — fed from the
previous child's piped stdout; `stdoutPiped` — `Stdio::piped()`
because further pipeline groups follow, else inherited). -/

structure SpawnRec where
  prog : Str
  args : List Str
  stdinPiped : Bool
  stdoutPiped : Bool
deriving DecidableEq, Repr

/-- Shell::resolve_command: a name containing `/` is used as-is;
otherwise the hardcoded locations `/bin` then `/usr/bin` are probed in
order and the first existing `location/name` wins; otherwise a
"Command not found" error.  `E` stands for `Path::exists`. -/
def resolve_command (E : Str → Bool) (command : Str) : Except Str Str :=
  if command.contains '/' then .ok command
  else
    if E (("/bin/".data) ++ command) then .ok (("/bin/".data) ++ command)
    else if E (("/usr/bin/".data) ++ command) then .ok (("/usr/bin/".data) ++ command)
    else .error (("Command not found: ".data) ++ command)

/-- Resolution procedure in the words of the specification: a name
containing a path separator is already resolved; otherwise the given
directory list is scanned in order, returning the first existing
`directory/name`; if none matches, fail with "command not found".
The claim instantiates `dirs` with the parsed PATH-equivalent
environment variable. -/
def resolve_scan (dirs : List Str) (E : Str → Bool) (command : Str) : Except Str Str :=
  if command.contains '/' then .ok command
  else
    match dirs.find? (fun d => E (d ++ ('/' :: command))) with
    | some d => .ok (d ++ ('/' :: command))
    | none => .error (("Command not found: ".data) ++ command)

/-- Outcome of processing one input line: final working directory,
the children spawned in order, whether the built-in `exit` fired, and
the first error surfaced (which aborts the rest of the line). -/
structure RunResult where
  cwd : Str
  spawns : List SpawnRec
  exited : Bool
  err : Option Str
deriving DecidableEq, Repr

/-- Modelled contract of `std::env::set_current_dir`: on success the
working directory becomes the target, on failure (`valid target`
false) it is left unchanged and an error is returned — the POSIX
`chdir` call is atomic. -/
def set_current_dir (valid : Str → Bool) (target : Str) : Except Str Str :=
  if valid target then .ok target
  else .error (("cd: ".data) ++ target)

/-- Shell::change_directory: target is the first argument, defaulting
to `/`. -/
def change_directory (valid : Str → Bool) (args : List Str) : Except Str Str :=
  set_current_dir valid ((args.head?).getD ("/".data))

/-- Loop body of Shell::process_input over the ` | `-separated groups,
with Shell::execute_command inlined: trim the group, skip empty text,
tokenize on whitespace, dispatch builtins (`cd`, `exit`/`exit;`,
`about`) synchronously, and otherwise resolve and spawn, wiring stdin
from the previous piped child and stdout to a pipe when more groups
follow.  The first error (`?`) stops the loop. -/
def run_line_go (E valid : Str → Bool) : Str → List SpawnRec → Bool → List Str → RunResult
  | cwd, spawns, _, [] => ⟨cwd, spawns, false, none⟩
  | cwd, spawns, prevPiped, g :: rest =>
    if (rust_trim g).isEmpty then run_line_go E valid cwd spawns false rest
    else
      match split_whitespace (rust_trim g) with
      | [] => ⟨cwd, spawns, false, some ("Empty command".data)⟩
      | command :: args =>
        if command = ("cd".data) then
          match change_directory valid args with
          | .ok newCwd => run_line_go E valid newCwd spawns false rest
          | .error e => ⟨cwd, spawns, false, some e⟩
        else if command = ("exit".data) ∨ command = ("exit;".data) then
          ⟨cwd, spawns, true, none⟩
        else if command = ("about".data) then
          run_line_go E valid cwd spawns false rest
        else
          match resolve_command E command with
          | .error e => ⟨cwd, spawns, false, some e⟩
          | .ok prog =>
            run_line_go E valid cwd
              (spawns ++ [⟨prog, args, prevPiped, ¬ rest.isEmpty⟩]) (¬ rest.isEmpty) rest

/-- Shell::process_input: split the input line on ` | ` and execute
each group in order. -/
def process_input (E valid : Str → Bool) (cwd : Str) (input : Str) : RunResult :=
  run_line_go E valid cwd [] false (splitOnStr (" | ".data) input)

/-- Bridge between the executable Bool prefix test used by the
embedded code and the propositional prefix order used in statements. -/
theorem isPrefixOf_iff (l1 l2 : Str) : l1.isPrefixOf l2 = true ↔ l1 <+: l2 :=
  List.isPrefixOf_iff_prefix

/-- A propositional prefix is the take of its own length. -/
theorem prefix_eq_take (l1 l2 : Str) : l1 <+: l2 ↔ l1 = l2.take l1.length :=
  List.prefix_iff_eq_take

/-- Claim C3 helper: the branch of `parse` that can panic requires a
non-empty last argument, which forces the argument list to be
non-empty. -/
theorem parse_isSome (user : Str) (metaExpects : Str → Bool) (s : Str) :
    (parse user metaExpects s).isSome := by
  unfold parse
  set args2 := ((split_command_line s).tail.take
      (((split_command_line s).length + (usizeMod - 1)) % usizeMod)).map
      (fun f => if ("~".data).isPrefixOf f then joinWith ("/".data) (parse_path user f) else f)
    with hargs2
  by_cases hcond : ¬ ((args2.getLast?).getD []).isEmpty ∧
      metaExpects (joinWith ("_".data) (split_whitespace (((split_command_line s).head?).getD [])))
  · simp only [hcond, if_true]
    cases hlast : args2.getLast? with
    | none =>
      exfalso
      have hemp : args2 = [] := List.getLast?_eq_none_iff.mp hlast
      have h1 := hcond.1
      rw [hemp] at h1
      simp [List.getLast?] at h1
    | some a => simp
  · simp only [hcond, if_false]
    simp

/-- C3: `parse` is a total function: for every input line, including
the empty line, whitespace-only lines and lines with unmatched quotes,
it returns a `ParsedCommand` and never panics (the `todo!()` arm is
unreachable and the `usize` wrap at `args.len() - 1` is harmless). -/
theorem c3_parse_total :
    ∀ (user : Str) (metaExpects : Str → Bool) (s : Str),
      ∃ pc : ParsedCommand, parse user metaExpects s = some pc := by
  intro user metaExpects s
  have h := parse_isSome user metaExpects s
  cases hp : parse user metaExpects s with
  | none => rw [hp] at h; simp at h
  | some pc => exact ⟨pc, rfl⟩

/-- C6 (code bug): in AutoComplete::autocomplete the multi-column
listing uses `columns = terminal_width / (max_width + 2)` with no
minimum.  With terminal width 4 and entries `abc`, `xyz` (maximum name
length 3) and the line `cat ` (empty fragment, both entries match, no
longer shared prefix), the column count is 0 and the `(i + 1) %
columns` line-break computation divides by zero (a panic, modelled as
`none`).  The older iteration in Shell::autocomplete clamps the same
quantity with `.max(1)` and is at least 1 for every width and name
length, as the claim states. -/
theorem c6_columns_zero_panic :
    columns_of 4 3 = 0 ∧
    autocomplete ("u".data) (fun _ => false)
      [(("abc".data), false), (("xyz".data), false)] 4 ("cat ".data) = none ∧
    shell_columns 4 3 = 1 ∧
    (∀ w m : Nat, 1 ≤ shell_columns w m) := by
  refine ⟨rfl, by decide, rfl, ?_⟩
  intro w m
  exact Nat.le_max_right (columns_of w m) 1

/-- C10 (code bug): when the first matching entry's name is a strict
prefix of every other match — the claim's own example, matches
`["foo", "foobar"]` with fragment `"fo"` — the one-character-at-a-time
growth in get_longest_match reaches length 4 and calls
`"foo".split_at(4)`, indexing past the end of the first name (a panic,
modelled as `none`); it does not terminate normally.  The same panic
propagates through the full autocomplete call on a directory holding
`foo` and `foobar` with the line `cat fo`. -/
theorem c10_longest_match_panic :
    get_longest_match [("foo".data), ("foobar".data)] ("fo".data) = none ∧
    autocomplete ("u".data) (fun _ => false)
      [(("foo".data), false), (("foobar".data), false)] 80 ("cat fo".data) = none := by
  exact ⟨by decide, by decide⟩

/-- Characterization of the `get_longest_match` loop: starting from a
length shared by every entry, it returns the last length shared by
all, stopping at the first length that is not — provided some entry
stops the growth before it overruns the first entry's name. -/
theorem glm_go_spec (names : List Str) (first : Str) :
    ∀ (fuel len : Nat), len ≤ first.length → first.length + 1 ≤ fuel + len →
      (∀ n ∈ names, first.take len <+: n) →
      (∃ n ∈ names, ¬ first <+: n) →
      ∃ L, len ≤ L ∧ L ≤ first.length ∧
        glm_go names first fuel (first.take len) len = some (first.take L) ∧
        (∀ n ∈ names, first.take L <+: n) ∧
        ¬ (∀ n ∈ names, first.take (L + 1) <+: n) := by
  intro fuel
  induction fuel with
  | zero =>
    intro len h1 h2 _ _
    omega
  | succ fuel ih =>
    intro len h1 h2 hsh hex
    by_cases hguard : first.length < len + 1
    · exfalso
      have hlen : len = first.length := by omega
      obtain ⟨n, hn, hnp⟩ := hex
      apply hnp
      have := hsh n hn
      rwa [hlen, List.take_length] at this
    · have hle : len + 1 ≤ first.length := by omega
      cases hall : names.all (fun e => (first.take (len + 1)).isPrefixOf e) with
      | true =>
        have hsh' : ∀ n ∈ names, first.take (len + 1) <+: n := by
          intro n hn
          exact (isPrefixOf_iff _ _).mp (List.all_eq_true.mp hall n hn)
        obtain ⟨L, hL1, hL2, hL3, hL4, hL5⟩ := ih (len + 1) hle (by omega) hsh' hex
        refine ⟨L, by omega, hL2, ?_, hL4, hL5⟩
        rw [glm_go]
        simp only [if_neg hguard, hall, if_true]
        exact hL3
      | false =>
        refine ⟨len, le_refl _, h1, ?_, hsh, ?_⟩
        · rw [glm_go]
          simp only [if_neg hguard, hall, Bool.false_eq_true, if_false]
        · intro hcon
          have : names.all (fun e => (first.take (len + 1)).isPrefixOf e) = true :=
            List.all_eq_true.mpr (fun n hn => (isPrefixOf_iff _ _).mpr (hcon n hn))
          rw [hall] at this
          exact Bool.false_ne_true this

/-- C5: the longest-common-prefix completion.  General part: for every
list of two or more matching entries whose growth stops (some entry
does not extend the first entry's whole name), the prefix is grown one
character at a time from the search fragment; the returned prefix is
shared by every match at its own length and the next length is not
shared by all — i.e. the loop stops at the first length not shared by
all matches and returns the last length shared by all.  Concrete part:
for a directory `["bar.txt", "foo.txt", "foobar.txt"]` and the line
`cat fo`, the engine extends the line to `cat foo` without listing
candidates. -/
theorem c5_lcp_tiebreak :
    (∀ (first : Str) (rest : List Str) (search : Str),
      (∀ n ∈ first :: rest, search <+: n) →
      (∃ n ∈ first :: rest, ¬ first <+: n) →
      ∃ L, search.length ≤ L ∧ L ≤ first.length ∧
        get_longest_match (first :: rest) search = some (first.take L) ∧
        (∀ n ∈ first :: rest, first.take L <+: n) ∧
        ¬ (∀ n ∈ first :: rest, first.take (L + 1) <+: n)) ∧
    autocomplete ("u".data) (fun _ => false)
      [(("bar.txt".data), false), (("foo.txt".data), false), (("foobar.txt".data), false)]
      80 ("cat fo".data) = some ("cat foo".data) := by
  constructor
  · intro first rest search hpref hex
    have hpf : search <+: first := hpref first (by simp)
    have hlen : search.length ≤ first.length := hpf.length_le
    have htake : first.take search.length = search :=
      ((prefix_eq_take _ _).mp hpf).symm
    have hsh : ∀ n ∈ first :: rest, first.take search.length <+: n := by
      intro n hn
      rw [htake]
      exact hpref n hn
    obtain ⟨L, hL1, hL2, hL3, hL4, hL5⟩ :=
      glm_go_spec (first :: rest) first (first.length + 1) search.length hlen (by omega) hsh hex
    refine ⟨L, hL1, hL2, ?_, hL4, hL5⟩
    have hred : get_longest_match (first :: rest) search
        = glm_go (first :: rest) first (first.length + 1) search search.length := rfl
    rw [htake] at hL3
    rw [hred]
    exact hL3
  · decide

/-- Witness for C5 at the concrete inputs from the specification:
matches `["foo.txt", "foobar.txt"]` with fragment `"fo"` satisfy the
hypotheses, and the computed longest common prefix is `"foo"`. -/
theorem c5_lcp_tiebreak_witness :
    (∃ L, ("fo".data).length ≤ L ∧ L ≤ ("foo.txt".data).length ∧
      get_longest_match [("foo.txt".data), ("foobar.txt".data)] ("fo".data) =
        some (("foo.txt".data).take L) ∧
      (∀ n ∈ [("foo.txt".data), ("foobar.txt".data)], ("foo.txt".data).take L <+: n) ∧
      ¬ (∀ n ∈ [("foo.txt".data), ("foobar.txt".data)], ("foo.txt".data).take (L + 1) <+: n)) ∧
    autocomplete ("u".data) (fun _ => false)
      [(("bar.txt".data), false), (("foo.txt".data), false), (("foobar.txt".data), false)]
      80 ("cat fo".data) = some ("cat foo".data) :=
  ⟨c5_lcp_tiebreak.1 ("foo.txt".data) [("foobar.txt".data)] ("fo".data)
      (by decide) (by decide),
   c5_lcp_tiebreak.2⟩

/-- C8: once every byte of the backing file has been consumed by the
reader, fetch_more reads an empty batch and leaves the store
unchanged: the state, the count and every indexed lookup are the same
before and after. -/
theorem c8_fetch_more_idempotent (st : HistorySt) (h : st.file.length ≤ st.pos) :
    fetch_more st = st ∧ hist_count (fetch_more st) = hist_count st ∧
      ∀ i, get_command (fetch_more st) i = get_command st i := by
  obtain ⟨f, p, cmds, n⟩ := st
  have hrem : f.drop p = [] := List.drop_eq_nil_of_le h
  have hfix : fetch_more ⟨f, p, cmds, n⟩ = ⟨f, p, cmds, n⟩ := by
    unfold fetch_more read_lines
    rw [hrem]
    simp [read_lines_rem]
  exact ⟨hfix, by rw [hfix], fun i => by rw [hfix]⟩

/-- Witness for C8: a store opened on the two-byte file `a\n` has
consumed the whole file, and fetch_more leaves it unchanged. -/
theorem c8_fetch_more_idempotent_witness :
    fetch_more (history_new ("a\n".data)) = history_new ("a\n".data) ∧
      hist_count (fetch_more (history_new ("a\n".data))) = hist_count (history_new ("a\n".data)) :=
  ⟨(c8_fetch_more_idempotent (history_new ("a\n".data)) (by decide)).1,
   (c8_fetch_more_idempotent (history_new ("a\n".data)) (by decide)).2.1⟩

/-- Joining with newlines and terminating with one more newline is the
same as terminating every chunk with a newline. -/
theorem joinWith_newline_flatten (nl : Str) :
    ∀ ks : List Str,
      (if ks.isEmpty then ([] : Str) else joinWith nl ks ++ nl) =
        (ks.map (fun c => c ++ nl)).flatten := by
  intro ks
  induction ks with
  | nil => simp
  | cons x t ih =>
    cases t with
    | nil => simp [joinWith]
    | cons y t' =>
      simp only [List.isEmpty_cons, if_false, Bool.false_eq_true] at ih ⊢
      rw [joinWith]
      simp only [List.map_cons, List.flatten_cons] at ih ⊢
      rw [← ih]
      simp [List.append_assoc]

/-- C2 (amended): on shutdown the history store persists exactly the
session-new non-blank commands, each newline-terminated — but it
PREPENDS this data to the front of the backing file, rewriting the
whole file; every previously persisted byte is still present, shifted
right by the length of the new data (not at its original position). -/
theorem c2_drop_prepends (st : HistorySt) :
    drop_file st = drop_data st ++ st.file ∧
    (∀ i, st.file[i]? = (drop_file st)[(drop_data st).length + i]?) ∧
    drop_data st =
      (((st.commands.filter (fun c => ¬ (rust_trim c).isEmpty)).take
          st.new_commands_count).map (fun c => c ++ ("\n".data))).flatten := by
  refine ⟨rfl, ?_, ?_⟩
  · intro i
    have : (drop_file st) = drop_data st ++ st.file := rfl
    rw [this, List.getElem?_append_right (by omega)]
    congr 1
    omega
  · exact joinWith_newline_flatten ("\n".data) _

/-- Witness for C2's amended statement at a concrete store: one
session-new command `new` over a file holding `old\n`. -/
theorem c2_drop_prepends_witness :
    drop_file ⟨("old\n".data), 4, [("new".data)], 1⟩ =
      drop_data ⟨("old\n".data), 4, [("new".data)], 1⟩ ++ ("old\n".data) :=
  (c2_drop_prepends ⟨("old\n".data), 4, [("new".data)], 1⟩).1

/-- C2 counterexample: with previous file content `old\n` and one
session-new command `new`, the persisted file is `new\nold\n`, not the
appended `old\nnew\n` the claim requires, and the byte at position 0
has changed from `o` to `n`. -/
theorem c2_counterexample :
    drop_file ⟨("old\n".data), 4, [("new".data)], 1⟩ = ("new\nold\n".data) ∧
    drop_file ⟨("old\n".data), 4, [("new".data)], 1⟩ ≠ ("old\n".data) ++ ("new\n".data) ∧
    (drop_file ⟨("old\n".data), 4, [("new".data)], 1⟩)[0]? = some 'n' ∧
    ("old\n".data)[0]? = some 'o' := by
  refine ⟨by decide, by decide, by decide, by decide⟩

/-- BufReader::read_line consumes no more than the remaining bytes. -/
theorem read_line_rem_le (rem : Str) : (read_line_rem rem).2 ≤ rem.length := by
  unfold read_line_rem
  have hle := (List.takeWhile_sublist (l := rem) (fun c => c ≠ '\n')).length_le
  split
  · rename_i hlt
    simp only
    omega
  · rename_i hlt
    simp only [not_lt] at hlt
    simp only
    omega

/-- BufReader::read_line consumes at least one byte of a non-empty
remainder. -/
theorem read_line_rem_pos (rem : Str) (h : rem ≠ []) : 1 ≤ (read_line_rem rem).2 := by
  unfold read_line_rem
  have hle := (List.takeWhile_sublist (l := rem) (fun c => c ≠ '\n')).length_le
  have h1 : 1 ≤ rem.length := by
    cases rem with
    | nil => exact absurd rfl h
    | cons a t => simp
  split
  · simp
  · rename_i hlt
    simp only [not_lt] at hlt
    simp only
    omega

/-- A batch read consumes no more than the remaining bytes. -/
theorem read_lines_rem_le : ∀ (n : Nat) (rem : Str), (read_lines_rem n rem).2 ≤ rem.length := by
  intro n
  induction n with
  | zero => intro rem; simp [read_lines_rem]
  | succ n ih =>
    intro rem
    rw [read_lines_rem]
    split
    · simp
    · simp only
      have h1 := read_line_rem_le rem
      have h2 := ih (rem.drop (read_line_rem rem).2)
      simp only [List.length_drop] at h2
      omega

/-- A batch read from a non-empty remainder consumes at least one
byte. -/
theorem read_lines_rem_pos (n : Nat) (rem : Str) (h : rem ≠ []) :
    1 ≤ (read_lines_rem (n + 1) rem).2 := by
  rw [read_lines_rem]
  split
  · rename_i hemp
    rw [List.isEmpty_iff] at hemp
    exact absurd hemp h
  · simp only
    have := read_line_rem_pos rem h
    omega

/-- Batch decomposition: the lines remaining at a position are the
next batch followed by the lines remaining after it — batched loading
never drops or reorders lines. -/
theorem read_all_rem_decomp : ∀ (n : Nat) (rem : Str),
    read_all_rem rem =
      (read_lines_rem n rem).1 ++ read_all_rem (rem.drop (read_lines_rem n rem).2) := by
  intro n
  induction n with
  | zero => intro rem; simp [read_lines_rem]
  | succ n ih =>
    intro rem
    rw [read_lines_rem]
    by_cases hemp : rem.isEmpty
    · rw [List.isEmpty_iff] at hemp
      subst hemp
      simp [read_all_rem]
    · simp only [hemp, if_false]
      rw [read_all_rem]
      simp only [hemp, dif_neg, not_false_iff]
      rw [ih (rem.drop (read_line_rem rem).2)]
      rw [List.drop_drop]
      simp

/-- Closed form of fetch_more: the next batch is appended and the
position advances by the bytes consumed (trivially so when the batch
is empty). -/
theorem fetch_more_eq (st : HistorySt) :
    fetch_more st = ⟨st.file, st.pos + (read_lines_rem 10 (st.file.drop st.pos)).2,
      st.commands ++ (read_lines_rem 10 (st.file.drop st.pos)).1,
      st.new_commands_count⟩ := by
  simp only [fetch_more, read_lines]
  split
  · rfl
  · rename_i hlen
    simp only [not_lt, Nat.le_zero, List.length_eq_zero] at hlen
    rw [hlen]
    simp

/-- Iterating fetch_more with fuel at least the number of unread bytes
loads exactly the remaining lines, in file order, at the end of the
window. -/
theorem fetch_iter_spec : ∀ (fuel : Nat) (st : HistorySt),
    st.pos ≤ st.file.length → st.file.length ≤ st.pos + fuel →
    fetch_iter fuel st = ⟨st.file, st.file.length,
      st.commands ++ read_all_rem (st.file.drop st.pos), st.new_commands_count⟩ := by
  intro fuel
  induction fuel with
  | zero =>
    intro st h1 h2
    have hpos : st.pos = st.file.length := by omega
    have hrem : st.file.drop st.pos = [] := List.drop_eq_nil_of_le (by omega)
    rw [hrem]
    rw [show read_all_rem [] = [] from by rw [read_all_rem]; simp]
    obtain ⟨f, p, cmds, n⟩ := st
    simp only at hpos ⊢
    rw [fetch_iter]
    simp [hpos]
  | succ fuel ih =>
    intro st h1 h2
    rw [fetch_iter]
    rw [fetch_more_eq st]
    by_cases hrem : st.file.drop st.pos = []
    · have hpos : st.file.length ≤ st.pos := by
        have := List.drop_eq_nil_iff.mp hrem
        omega
      rw [hrem]
      have h10 : read_lines_rem 10 ([] : Str) = ([], 0) := rfl
      rw [h10]
      have := ih ⟨st.file, st.pos + 0, st.commands ++ [], st.new_commands_count⟩
        (by simp; omega) (by simp; omega)
      simp only at this
      rw [this]
      simp only [Nat.add_zero, List.append_nil, hrem]
    · have hk1 : 1 ≤ (read_lines_rem 10 (st.file.drop st.pos)).2 :=
        read_lines_rem_pos 9 (st.file.drop st.pos) hrem
      have hkle : (read_lines_rem 10 (st.file.drop st.pos)).2 ≤ (st.file.drop st.pos).length :=
        read_lines_rem_le 10 (st.file.drop st.pos)
      simp only [List.length_drop] at hkle
      have := ih ⟨st.file, st.pos + (read_lines_rem 10 (st.file.drop st.pos)).2,
        st.commands ++ (read_lines_rem 10 (st.file.drop st.pos)).1, st.new_commands_count⟩
        (by simp only; omega) (by simp only; omega)
      simp only at this
      rw [this]
      rw [List.append_assoc]
      rw [← List.drop_drop]
      rw [← read_all_rem_decomp 10 (st.file.drop st.pos)]

/-- fetch_all fully loads the backing file. -/
theorem fetch_all_spec (st : HistorySt) (h : st.pos ≤ st.file.length) :
    fetch_all st = ⟨st.file, st.file.length,
      st.commands ++ read_all_rem (st.file.drop st.pos), st.new_commands_count⟩ :=
  fetch_iter_spec st.file.length st h (by omega)

/-- Unfolding of the add_command fold by one command. -/
theorem dedup_from_cons (acc : List Str) (c : Str) (cs : List Str) :
    dedup_from acc (c :: cs) =
      dedup_from (if ((acc.head?).getD []) ≠ c then c :: acc else acc) cs := rfl

/-- The add_command fold never shrinks the window. -/
theorem dedup_from_length : ∀ (cs acc : List Str), acc.length ≤ (dedup_from acc cs).length := by
  intro cs
  induction cs with
  | nil => intro acc; simp [dedup_from]
  | cons c cs ih =>
    intro acc
    rw [dedup_from_cons]
    split
    · have := ih (c :: acc)
      simp only [List.length_cons] at this
      omega
    · exact ih acc

/-- Everything in the folded window comes from the accumulator or from
the added commands. -/
theorem dedup_from_mem : ∀ (cs acc : List Str) (x : Str),
    x ∈ dedup_from acc cs → x ∈ acc ∨ x ∈ cs := by
  intro cs
  induction cs with
  | nil => intro acc x hx; exact Or.inl hx
  | cons c cs ih =>
    intro acc x hx
    rw [dedup_from_cons] at hx
    rcases ih _ x hx with hacc | hcs
    · by_cases hc : ((acc.head?).getD []) ≠ c
      · rw [if_pos hc] at hacc
        rcases List.mem_cons.mp hacc with hxc | hxa
        · exact Or.inr (by simp [hxc])
        · exact Or.inl hxa
      · rw [if_neg hc] at hacc
        exact Or.inl hacc
    · exact Or.inr (List.mem_cons_of_mem c hcs)

/-- add_command pushes a command that differs from the current
head. -/
theorem add_command_push (f : Str) (p : Nat) (acc : List Str) (n : Nat) (c : Str)
    (hc : ((acc.head?).getD []) ≠ c) :
    add_command ⟨f, p, acc, n⟩ c = ⟨f, p, c :: acc, n + 1⟩ := by
  unfold add_command
  rw [if_pos hc]

/-- add_command skips a command equal to the current head. -/
theorem add_command_skip (f : Str) (p : Nat) (acc : List Str) (n : Nat) (c : Str)
    (hc : ¬ ((acc.head?).getD []) ≠ c) :
    add_command ⟨f, p, acc, n⟩ c = ⟨f, p, acc, n⟩ := by
  unfold add_command
  rw [if_neg hc]

/-- Closed form of folding add_command over a command sequence: the
window is the dedup fold and the session-new counter grows by exactly
the number of pushed entries. -/
theorem foldl_add_command : ∀ (cs acc : List Str) (f : Str) (p n : Nat),
    cs.foldl add_command ⟨f, p, acc, n⟩ =
      ⟨f, p, dedup_from acc cs, n + ((dedup_from acc cs).length - acc.length)⟩ := by
  intro cs
  induction cs with
  | nil =>
    intro acc f p n
    simp [dedup_from]
  | cons c cs ih =>
    intro acc f p n
    rw [List.foldl_cons, dedup_from_cons]
    by_cases hc : ((acc.head?).getD []) ≠ c
    · rw [add_command_push f p acc n c hc, if_pos hc, ih (c :: acc) f p (n + 1)]
      have hgrow := dedup_from_length cs (c :: acc)
      simp only [List.length_cons] at hgrow ⊢
      congr 1
      omega
    · rw [add_command_skip f p acc n c hc, if_neg hc, ih acc f p n]

/-- Mapping trim_end over already-trimmed strings is the identity. -/
theorem map_trim_end_id : ∀ (l : List Str), (∀ c ∈ l, trim_end c = c) → l.map trim_end = l := by
  intro l
  induction l with
  | nil => intro _; rfl
  | cons x t ih =>
    intro h
    rw [List.map_cons, h x (by simp), ih (fun c hc => h c (List.mem_cons_of_mem x hc))]

/-- Newline-terminated lines with no interior newline read back as
their trim_end. -/
theorem takeWhile_no_newline (x ys : Str) (hx : '\n' ∉ x) :
    (x ++ '\n' :: ys).takeWhile (fun c => c ≠ '\n') = x := by
  induction x with
  | nil => simp [List.takeWhile]
  | cons c x ih =>
    have hc : c ≠ '\n' := by
      intro hcn
      exact hx (by simp [hcn])
    have hx' : '\n' ∉ x := fun hm => hx (List.mem_cons_of_mem c hm)
    have hpc : (decide (c ≠ '\n')) = true := by simp [hc]
    simp only [List.cons_append, List.takeWhile_cons, hpc, if_true]
    rw [ih hx']

/-- Reading every line of a string made of newline-terminated chunks
with no interior newlines recovers the trim_end of each chunk in
order. -/
theorem read_all_rem_flatten : ∀ ks : List Str, (∀ c ∈ ks, '\n' ∉ c) →
    read_all_rem ((ks.map (fun c => c ++ ("\n".data))).flatten) = ks.map trim_end := by
  intro ks
  induction ks with
  | nil =>
    intro _
    rw [show ((([] : List Str).map (fun c => c ++ ("\n".data))).flatten : Str) = [] from rfl]
    rw [read_all_rem]
    simp
  | cons x t ih =>
    intro h
    have hx : '\n' ∉ x := h x (by simp)
    have hrem : ((x :: t).map (fun c => c ++ ("\n".data))).flatten
        = x ++ '\n' :: (t.map (fun c => c ++ ("\n".data))).flatten := by
      simp [List.flatten_cons]
    rw [hrem]
    have htw := takeWhile_no_newline x ((t.map (fun c => c ++ ("\n".data))).flatten) hx
    have hlen : (x ++ '\n' :: (t.map (fun c => c ++ ("\n".data))).flatten).length
        = x.length + 1 + ((t.map (fun c => c ++ ("\n".data))).flatten).length := by
      simp
      omega
    have hline : read_line_rem (x ++ '\n' :: (t.map (fun c => c ++ ("\n".data))).flatten)
        = (x, x.length + 1) := by
      unfold read_line_rem
      rw [htw]
      rw [if_pos (by rw [hlen]; omega)]
    rw [read_all_rem]
    rw [dif_neg (by simp)]
    rw [hline]
    have hdrop : (x ++ '\n' :: (t.map (fun c => c ++ ("\n".data))).flatten).drop (x.length + 1)
        = (t.map (fun c => c ++ ("\n".data))).flatten := by
      have : x ++ '\n' :: (t.map (fun c => c ++ ("\n".data))).flatten
          = (x ++ ['\n']) ++ (t.map (fun c => c ++ ("\n".data))).flatten := by simp
      rw [this]
      have hxlen : (x ++ ['\n']).length = x.length + 1 := by simp
      rw [← hxlen]
      exact List.drop_left (x ++ ['\n']) _
    rw [hdrop]
    rw [ih (fun c hc => h c (List.mem_cons_of_mem x hc))]
    simp

/-- C4 (amended): the add–persist–reopen round trip.  For commands
that are non-blank, contain no interior newline and carry no trailing
whitespace, reopening the backing file and fetching every batch
reproduces exactly the pre-shutdown in-memory window: the added
commands with consecutive duplicates dropped, in REVERSE order of
addition (most recent first) — batched loading never drops or
reorders entries, but `get(0)` is the most recently added command, not
the first added. -/
theorem c4_round_trip (cs : List Str)
    (h : ∀ c ∈ cs, ¬ (rust_trim c).isEmpty ∧ '\n' ∉ c ∧ trim_end c = c) :
    (reopened_store cs).commands = (session_store cs).commands ∧
    (session_store cs).commands = dedup_stack cs ∧
    hist_count (reopened_store cs) = (dedup_stack cs).length ∧
    (∀ i, get_command (reopened_store cs) i = (dedup_stack cs)[i]?) := by
  have hsess : session_store cs = ⟨[], 0, dedup_stack cs, (dedup_stack cs).length⟩ := by
    unfold session_store
    rw [show history_new [] = (⟨[], 0, [], 0⟩ : HistorySt) from rfl]
    rw [foldl_add_command cs [] [] 0 0]
    unfold dedup_stack
    simp
  have hmem : ∀ x ∈ dedup_stack cs, x ∈ cs := by
    intro x hx
    rcases dedup_from_mem cs [] x hx with h1 | h2
    · exact absurd h1 (List.not_mem_nil x)
    · exact h2
  have hfilter : (dedup_stack cs).filter (fun c => ¬ (rust_trim c).isEmpty) = dedup_stack cs := by
    apply List.filter_eq_self.mpr
    intro a ha
    simpa using (h a (hmem a ha)).1
  have hdata : drop_data (session_store cs)
      = ((dedup_stack cs).map (fun c => c ++ ("\n".data))).flatten := by
    rw [hsess]
    simp only [drop_data]
    rw [hfilter, List.take_length]
    exact joinWith_newline_flatten ("\n".data) (dedup_stack cs)
  have hfile : drop_file (session_store cs)
      = ((dedup_stack cs).map (fun c => c ++ ("\n".data))).flatten := by
    unfold drop_file prepend_to_file
    rw [hdata, hsess]
    simp
  have hreadall : read_all_rem (drop_file (session_store cs)) = dedup_stack cs := by
    rw [hfile,
      read_all_rem_flatten (dedup_stack cs) (fun c hc => (h c (hmem c hc)).2.1),
      map_trim_end_id (dedup_stack cs) (fun c hc => (h c (hmem c hc)).2.2)]
  have hopen : history_new (drop_file (session_store cs)) =
      ⟨drop_file (session_store cs),
        (read_lines_rem 10 (drop_file (session_store cs))).2,
        (read_lines_rem 10 (drop_file (session_store cs))).1, 0⟩ := by
    simp only [history_new, read_lines, List.drop_zero, Nat.zero_add]
  have hre : reopened_store cs = ⟨drop_file (session_store cs),
      (drop_file (session_store cs)).length,
      read_all_rem (drop_file (session_store cs)), 0⟩ := by
    unfold reopened_store
    rw [hopen]
    rw [fetch_all_spec ⟨drop_file (session_store cs),
        (read_lines_rem 10 (drop_file (session_store cs))).2,
        (read_lines_rem 10 (drop_file (session_store cs))).1, 0⟩
      (read_lines_rem_le 10 (drop_file (session_store cs)))]
    dsimp only
    rw [← read_all_rem_decomp 10 (drop_file (session_store cs))]
  have hcomm : (reopened_store cs).commands = dedup_stack cs := by
    rw [hre]
    exact hreadall
  refine ⟨?_, ?_, ?_, ?_⟩
  · rw [hcomm, hsess]
  · rw [hsess]
  · unfold hist_count
    rw [hcomm]
  · intro i
    unfold get_command
    rw [hcomm]

/-- Witness for C4's amended statement: adding `a` then `b` to a fresh
store, persisting and reopening reproduces the in-memory window
`[b, a]`. -/
theorem c4_round_trip_witness :
    (reopened_store [("a".data), ("b".data)]).commands
      = (session_store [("a".data), ("b".data)]).commands ∧
    (session_store [("a".data), ("b".data)]).commands = dedup_stack [("a".data), ("b".data)] :=
  ⟨(c4_round_trip [("a".data), ("b".data)] (by decide)).1,
   (c4_round_trip [("a".data), ("b".data)] (by decide)).2.1⟩

/-- C4 counterexample: after adding `a` then `b` and reopening, the
reopened store yields `get(0) = b` and `get(1) = a` — the reverse of
the order in which the commands were added, so the claim's "same
commands in the same order" fails: `get(0)` is not the first-added
`a`. -/
theorem c4_counterexample :
    get_command (reopened_store [("a".data), ("b".data)]) 0 = some ("b".data) ∧
    get_command (reopened_store [("a".data), ("b".data)]) 1 = some ("a".data) ∧
    (some ("b".data) : Option Str) ≠ some ("a".data) := by
  refine ⟨by decide, by decide, by decide⟩

/-- C7 (amended): Shell::resolve_command behaves exactly as the
specification's scan procedure, but over the hardcoded directory list
`/bin`, `/usr/bin` — not over the directories of the PATH-equivalent
environment variable: a name containing `/` is used as-is, otherwise
the first existing `directory/name` among the two is returned, else a
"Command not found" error. -/
theorem c7_resolve_fixed_locations (E : Str → Bool) (command : Str) :
    resolve_command E command =
      resolve_scan [("/bin".data), ("/usr/bin".data)] E command := by
  unfold resolve_command resolve_scan
  by_cases hsl : command.contains '/'
  · rw [if_pos hsl, if_pos hsl]
  · rw [if_neg hsl, if_neg hsl]
    simp only [List.find?]
    by_cases h1 : E (("/bin".data) ++ ('/' :: command))
    · rw [show (("/bin/".data) ++ command) = (("/bin".data) ++ ('/' :: command)) from rfl]
      rw [if_pos h1, h1]
    · rw [show (("/bin/".data) ++ command) = (("/bin".data) ++ ('/' :: command)) from rfl]
      rw [if_neg h1]
      rw [show (E (("/bin".data) ++ ('/' :: command)) : Bool) = false from by
        rw [Bool.eq_false_iff]; exact fun hc => h1 (by rw [hc]) ]
      by_cases h2 : E (("/usr/bin".data) ++ ('/' :: command))
      · rw [show (("/usr/bin/".data) ++ command) = (("/usr/bin".data) ++ ('/' :: command)) from rfl]
        rw [if_pos h2, h2]
      · rw [show (("/usr/bin/".data) ++ command) = (("/usr/bin".data) ++ ('/' :: command)) from rfl]
        rw [if_neg h2]
        rw [show (E (("/usr/bin".data) ++ ('/' :: command)) : Bool) = false from by
          rw [Bool.eq_false_iff]; exact fun hc => h2 (by rw [hc]) ]

/-- C7 counterexample: with PATH-equivalent directories `["/opt"]` and
a file system where only `/opt/tool` exists, the specification's scan
finds `/opt/tool`, but the code returns "Command not found" because it
only ever probes `/bin` and `/usr/bin`. -/
theorem c7_counterexample :
    resolve_command (fun p => p = ("/opt/tool".data)) ("tool".data)
      = .error ("Command not found: tool".data) ∧
    resolve_scan [("/opt".data)] (fun p => p = ("/opt/tool".data)) ("tool".data)
      = .ok ("/opt/tool".data) ∧
    (Except.error ("Command not found: tool".data) : Except Str Str)
      ≠ .ok ("/opt/tool".data) := by
  refine ⟨rfl, rfl, fun hc => Except.noConfusion hc⟩

/-- C1 (amended): the executor has no conditional-AND handling.  A
line without a ` | ` separator whose first whitespace token is not a
builtin forms a single stage: exactly one process is spawned, with
every remaining token — including any `&&` and the words after it —
passed to it as arguments; no further process is spawned and no exit
status is consulted. -/
theorem c1_no_conditional_chaining (E valid : Str → Bool) (cwd input : Str)
    (command : Str) (args : List Str) (prog : Str)
    (h1 : splitOnStr (" | ".data) input = [input])
    (h2 : split_whitespace (rust_trim input) = command :: args)
    (h3 : command ≠ ("cd".data)) (h4 : command ≠ ("exit".data))
    (h5 : command ≠ ("exit;".data)) (h6 : command ≠ ("about".data))
    (h7 : resolve_command E command = .ok prog) :
    process_input E valid cwd input = ⟨cwd, [⟨prog, args, false, false⟩], false, none⟩ := by
  unfold process_input
  rw [h1]
  rw [run_line_go]
  have hne : ((rust_trim input).isEmpty : Bool) = false := by
    rw [Bool.eq_false_iff]
    intro hemp
    rw [List.isEmpty_iff] at hemp
    rw [hemp] at h2
    exact List.noConfusion (h2.symm.trans (show split_whitespace [] = [] from rfl)).symm
  rw [show (if (rust_trim input).isEmpty = true then
        run_line_go E valid cwd [] false []
      else
        match split_whitespace (rust_trim input) with
        | [] => ⟨cwd, [], false, some ("Empty command".data)⟩
        | command :: args =>
          if command = ("cd".data) then
            match change_directory valid args with
            | .ok newCwd => run_line_go E valid newCwd [] false []
            | .error e => ⟨cwd, [], false, some e⟩
          else if command = ("exit".data) ∨ command = ("exit;".data) then
            ⟨cwd, [], true, none⟩
          else if command = ("about".data) then
            run_line_go E valid cwd [] false []
          else
            match resolve_command E command with
            | .error e => ⟨cwd, [], false, some e⟩
            | .ok prog =>
              run_line_go E valid cwd
                ([] ++ [⟨prog, args, false, ¬ ([] : List Str).isEmpty⟩])
                (¬ ([] : List Str).isEmpty) []) =
      (match split_whitespace (rust_trim input) with
        | [] => (⟨cwd, [], false, some ("Empty command".data)⟩ : RunResult)
        | command :: args =>
          if command = ("cd".data) then
            match change_directory valid args with
            | .ok newCwd => run_line_go E valid newCwd [] false []
            | .error e => ⟨cwd, [], false, some e⟩
          else if command = ("exit".data) ∨ command = ("exit;".data) then
            ⟨cwd, [], true, none⟩
          else if command = ("about".data) then
            run_line_go E valid cwd [] false []
          else
            match resolve_command E command with
            | .error e => ⟨cwd, [], false, some e⟩
            | .ok prog =>
              run_line_go E valid cwd
                ([] ++ [⟨prog, args, false, ¬ ([] : List Str).isEmpty⟩])
                (¬ ([] : List Str).isEmpty) []) from by rw [hne]; simp]
  rw [h2]
  dsimp only
  rw [if_neg h3, if_neg (by
    intro hor
    rcases hor with hx | hx
    · exact h4 hx
    · exact h5 hx), if_neg h6, h7]
  rfl

/-- Witness for C1's amended statement at the specification's own
input: `false && echo should-not-print` (with `/bin/false` existing)
spawns exactly one process — `/bin/false` with arguments `&&`, `echo`,
`should-not-print` — regardless of any exit status. -/
theorem c1_no_conditional_chaining_witness :
    process_input (fun p => p = ("/bin/false".data)) (fun _ => true) ("/home/u".data)
        ("false && echo should-not-print".data)
      = ⟨("/home/u".data),
          [⟨("/bin/false".data),
            [("&&".data), ("echo".data), ("should-not-print".data)], false, false⟩],
          false, none⟩ :=
  c1_no_conditional_chaining (fun p => p = ("/bin/false".data)) (fun _ => true)
    ("/home/u".data) ("false && echo should-not-print".data)
    ("false".data) [("&&".data), ("echo".data), ("should-not-print".data)]
    ("/bin/false".data)
    (by decide) (by decide) (by decide) (by decide) (by decide) (by decide) rfl

/-- C1 counterexample: on `false && echo should-not-print` the
executor spawns exactly one process, `/bin/false`, whose argument list
is the literal remainder `["&&", "echo", "should-not-print"]`.  Under
the claim, the line splits into the chain stages `false` (no
arguments) and `echo should-not-print` (argument `should-not-print`),
and `false` would be started as its own stage with no arguments; the
actual argument list matches neither stage, and no second stage —
conditioned on an exit status or otherwise — exists in the code. -/
theorem c1_counterexample :
    process_input (fun p => p = ("/bin/false".data)) (fun _ => true) ("/home/u".data)
        ("false && echo should-not-print".data)
      = ⟨("/home/u".data),
          [⟨("/bin/false".data),
            [("&&".data), ("echo".data), ("should-not-print".data)], false, false⟩],
          false, none⟩ ∧
    splitOnStr (" && ".data) ("false && echo should-not-print".data)
      = [("false".data), ("echo should-not-print".data)] ∧
    ([("&&".data), ("echo".data), ("should-not-print".data)] : List Str) ≠ [] ∧
    ([("&&".data), ("echo".data), ("should-not-print".data)] : List Str)
      ≠ [("should-not-print".data)] := by
  refine ⟨by decide, by decide, by decide, by decide⟩

/-- C9: a `cd` line whose target the OS rejects reports an error,
spawns nothing, and leaves the working directory exactly as it was —
`std::env::set_current_dir` fails atomically and the code makes no
other state change. -/
theorem c9_cd_atomic (E valid : Str → Bool) (cwd input target : Str)
    (h1 : splitOnStr (" | ".data) input = [input])
    (h2 : split_whitespace (rust_trim input) = [("cd".data), target])
    (h3 : valid target = false) :
    (process_input E valid cwd input).cwd = cwd ∧
    (process_input E valid cwd input).spawns = [] ∧
    (process_input E valid cwd input).err.isSome := by
  have hrun : process_input E valid cwd input
      = ⟨cwd, [], false, some (("cd: ".data) ++ target)⟩ := by
    unfold process_input
    rw [h1]
    rw [run_line_go]
    have hne : ((rust_trim input).isEmpty : Bool) = false := by
      rw [Bool.eq_false_iff]
      intro hemp
      rw [List.isEmpty_iff] at hemp
      rw [hemp] at h2
      exact List.noConfusion (h2.symm.trans (show split_whitespace [] = [] from rfl)).symm
    rw [hne]
    simp only [Bool.false_eq_true, if_false]
    rw [h2]
    dsimp only
    rw [if_pos rfl]
    unfold change_directory set_current_dir
    dsimp only
    rw [show ((([target] : List Str).head?).getD ("/".data)) = target from rfl]
    rw [h3]
    simp
  rw [hrun]
  exact ⟨rfl, rfl, rfl⟩

/-- Witness for C9 at the specification's own input: `cd /nonexistent`
with every directory invalid leaves the working directory `/home/u`
unchanged, spawns nothing, and reports an error. -/
theorem c9_cd_atomic_witness :
    (process_input (fun _ => false) (fun _ => false) ("/home/u".data)
        ("cd /nonexistent".data)).cwd = ("/home/u".data) ∧
    (process_input (fun _ => false) (fun _ => false) ("/home/u".data)
        ("cd /nonexistent".data)).spawns = [] ∧
    (process_input (fun _ => false) (fun _ => false) ("/home/u".data)
        ("cd /nonexistent".data)).err.isSome :=
  c9_cd_atomic (fun _ => false) (fun _ => false) ("/home/u".data)
    ("cd /nonexistent".data) ("/nonexistent".data)
    (by decide) (by decide) rfl
